import Mathlib

/-
Verification of the medical-RAG chunking and retrieval pipeline.

Python strings are modelled as `List Char`; Python `len` is `List.length`,
`str.strip` is `strip`, slicing `s[-n:]` is `takeLast n`.  The functions
`cleanText`, `splitIntoParagraphs`, `chunkParagraphs` are translated from
`src/preprocessor.py` (`MedicalTextProcessor.clean_text`,
`split_into_paragraphs`, `chunk_paragraphs`); the vector-store and generator
operations are translated from `src/vector_store.py` and `src/generator.py`,
with the external Milvus backend and the language model represented by
explicit oracle arguments constrained by their documented contracts.
-/

namespace MedicalRAG

abbrev Text := List Char

def isWS (c : Char) : Bool := c.isWhitespace

/-- Python `str.lstrip()`: drop leading whitespace. -/
def lstrip (s : Text) : Text := s.dropWhile isWS

/-- Python `str.rstrip()`: drop trailing whitespace. -/
def rstrip (s : Text) : Text := (s.reverse.dropWhile isWS).reverse

/-- Python `str.strip()`: drop whitespace on both ends. -/
def strip (s : Text) : Text := rstrip (lstrip s)

/-- Python slice `s[-n:]` (for `n ≥ 1`): the last `n` characters,
or the whole string when it is shorter than `n`. -/
def takeLast (n : Nat) (s : Text) : Text := s.drop (s.length - n)

/-- `s` contains at least one non-whitespace character. -/
def hasNonWS (s : Text) : Bool := s.any (fun c => !isWS c)

/-- `s` is non-empty and its last character is not whitespace. -/
def endsNonWS (s : Text) : Bool := (s.getLast?.map (fun c => !isWS c)).getD false

/-- `re.sub(pat+, r, s)` for a single-character class `p`: replace every
maximal run of characters satisfying `p` by the single character `r`.  A
run's characters are dropped until its last one, which is replaced by `r`. -/
def collapseRuns (p : Char → Bool) (r : Char) : Text → Text
  | [] => []
  | [c] => if p c then [r] else [c]
  | c :: d :: rest =>
    if p c && p d then collapseRuns p r (d :: rest)
    else (if p c then r else c) :: collapseRuns p r (d :: rest)

/-- Worker for `addSentenceBreaks`; `inRun` is true while consuming the
whitespace run that followed a matched period. -/
def addSentenceBreaksAux (inRun : Bool) : Text → Text
  | [] => []
  | c :: rest =>
    if inRun && isWS c then addSentenceBreaksAux true rest
    else if c = '.' && (rest.head?.map isWS).getD false then
      '.' :: '\n' :: addSentenceBreaksAux true rest
    else c :: addSentenceBreaksAux false rest

/-- `re.sub(r'\.\s+', '.\n', s)`: replace each period followed by a
whitespace run by a period and a single newline. -/
def addSentenceBreaks (s : Text) : Text := addSentenceBreaksAux false s

/-- `MedicalTextProcessor.clean_text`: collapse newline runs, collapse
space/tab runs, turn newlines into spaces, then re-insert a newline after
each sentence-ending period. -/
def cleanText (text : Text) : Text :=
  let t1 := collapseRuns (fun c => c = '\n') '\n' text
  let t2 := collapseRuns (fun c => c = ' ' || c = '\t') ' ' t1
  let t3 := t2.map (fun c => if c = '\n' then ' ' else c)
  addSentenceBreaks t3

/-- Python `str.split(sep)` for a one-character separator. -/
def splitOn (sep : Char) : Text → List Text
  | [] => [[]]
  | c :: rest =>
    if c = sep then [] :: splitOn sep rest
    else
      match splitOn sep rest with
      | [] => [[c]]
      | t :: ts => (c :: t) :: ts

/-- `MedicalTextProcessor.split_into_paragraphs`: split on newlines, strip
each piece, drop pieces that strip to empty, then drop pieces shorter than
`minLen`. -/
def splitIntoParagraphs (text : Text) (minLen : Nat := 50) : List Text :=
  (((splitOn '\n' text).map strip).filter (fun p => !p.isEmpty)).filter
    (fun p => decide (minLen ≤ p.length))

def isSentEnd (c : Char) : Bool := c = '.' || c = '!' || c = '?'

/-- Worker for `sentSplit`; `acc` holds the current piece reversed, and
`inSep` is true while consuming a separator whitespace run.  A maximal
whitespace run whose previous character is `.`, `!` or `?` is a separator,
matching the regex `(?<=[.!?])\s+`. -/
def sentSplitAux (inSep : Bool) (acc : Text) : Text → List Text
  | [] => [acc.reverse]
  | c :: rest =>
    if inSep && isWS c then sentSplitAux true acc rest
    else if isWS c && (acc.head?.map isSentEnd).getD false then
      acc.reverse :: sentSplitAux true [] rest
    else
      sentSplitAux false (c :: acc) rest

/-- `re.split(r'(?<=[.!?])\s+', s)` from `chunk_paragraphs`. -/
def sentSplit (s : Text) : List Text := sentSplitAux false [] s

structure Chunk where
  chunk_id : Nat
  text : Text
  length : Nat
  source_paragraphs : String
deriving DecidableEq, Repr

/-- The dictionary appended to `chunks` in `chunk_paragraphs`: the text is
stripped and the length recomputed from the stripped text. -/
def mkChunk (cid : Nat) (buf : Text) (tag : String) : Chunk :=
  ⟨cid, strip buf, (strip buf).length, tag⟩

/-- Loop state of `chunk_paragraphs`: emitted chunks, the running buffer
`current_chunk`, the tracked `current_length`, and the next `chunk_id`.
`events` additionally records, for each flush that seeded the next buffer
with overlap text, the id of the flushed chunk and the overlap text taken
from the unstripped buffer; it is specification instrumentation only and
erased by `chunkParagraphs`. -/
structure BState where
  chunks : List Chunk
  cur : Text
  curLen : Nat
  cid : Nat
  events : List (Nat × Text)
deriving Repr

/-- The inner sentence-packing loop of `chunk_paragraphs` for a paragraph
longer than `max_chunk_size`: greedily pack sentences into `sub_chunk`,
emitting it when the next sentence does not fit.  Returns the emitted
chunks, the leftover `sub_chunk` and the next `chunk_id`. -/
def packSentences (maxSize : Nat) (tag : String) :
    List Text → Text → Nat → List Chunk × Text × Nat
  | [], sub, cid => ([], sub, cid)
  | sent :: rest, sub, cid =>
    if sub.length + sent.length ≤ maxSize then
      packSentences maxSize tag rest
        (if sub.isEmpty then sent else sub ++ ' ' :: sent) cid
    else if sub.isEmpty then
      packSentences maxSize tag rest sent cid
    else
      let res := packSentences maxSize tag rest sent (cid + 1)
      (mkChunk cid sub tag :: res.1, res.2)

/-- One iteration of the `for i, para in enumerate(paragraphs)` loop of
`chunk_paragraphs`. -/
def bstep (maxSize overlap : Nat) (st : BState) (ip : Nat × Text) : BState :=
  let i := ip.1
  let para := ip.2
  if maxSize < para.length then
    -- paragraph alone exceeds max_chunk_size: flush the buffer, then split
    -- the paragraph at sentence boundaries
    let st1 :=
      if st.cur.isEmpty then st
      else { st with chunks := st.chunks ++ [mkChunk st.cid st.cur (toString i)],
                     cid := st.cid + 1, cur := [], curLen := 0 }
    let res := packSentences maxSize (toString i ++ "(部分)") (sentSplit para) [] st1.cid
    let st2 := { st1 with chunks := st1.chunks ++ res.1, cid := res.2.2 }
    if res.2.1.isEmpty then st2
    else { st2 with cur := res.2.1, curLen := res.2.1.length }
  else if st.curLen + para.length ≤ maxSize then
    -- paragraph joins the current buffer; note that the tracked length adds
    -- only the paragraph length, not the joining space
    { st with cur := if st.cur.isEmpty then para else st.cur ++ ' ' :: para,
              curLen := st.curLen + para.length }
  else
    -- buffer would overflow: flush it, then seed the new buffer
    let st1 :=
      if st.cur.isEmpty then st
      else { st with chunks := st.chunks ++ [mkChunk st.cid st.cur (toString (i - 1))],
                     cid := st.cid + 1 }
    -- the original tags this flush with `i-1 if i>0 else i`; Nat subtraction
    -- makes `i - 1` equal to `i` exactly when `i = 0`
    if 0 < overlap && !st.cur.isEmpty then
      let otext := if overlap < st.cur.length then takeLast overlap st.cur else st.cur
      { st1 with cur := otext ++ ' ' :: para,
                 curLen := (otext ++ ' ' :: para).length,
                 events := st1.events ++ [(st.cid, otext)] }
    else
      { st1 with cur := para, curLen := para.length }

def initState : BState := ⟨[], [], 0, 0, []⟩

def chunkBuild (paragraphs : List Text) (maxSize overlap : Nat) : BState :=
  paragraphs.enum.foldl (bstep maxSize overlap) initState

/-- `MedicalTextProcessor.chunk_paragraphs`: run the loop, then flush the
final buffer if it is non-empty. -/
def chunkParagraphs (paragraphs : List Text)
    (maxSize : Nat := 500) (overlap : Nat := 50) : List Chunk :=
  let st := chunkBuild paragraphs maxSize overlap
  if st.cur.isEmpty then st.chunks
  else st.chunks ++ [mkChunk st.cid st.cur "final"]

/-- The flush-with-overlap events of a build run (instrumentation). -/
def chunkEvents (paragraphs : List Text) (maxSize overlap : Nat) : List (Nat × Text) :=
  (chunkBuild paragraphs maxSize overlap).events

/-! ## Specification-side definitions for the chunk builder -/

/-- A paragraph as produced by `split_into_paragraphs`: non-empty and equal
to its own strip. -/
def goodPara (p : Text) : Bool := !p.isEmpty && (strip p == p)

/-- The length of the longest sentence, over all input paragraphs, that
exceeds `maxSize` (0 if none does): the only source of unavoidably
oversized chunks. -/
def maxOverLen (ps : List Text) (maxSize : Nat) : Nat :=
  ((((ps.map sentSplit).flatten).map List.length).filter (fun n => decide (maxSize < n))).foldr
    max 0

/-- The overlap window the specification designates on an emitted chunk's
text: its trailing `min overlap length` characters, left-trimmed (the
builder strips the seeded buffer before emitting it, so leading whitespace
of the window cannot survive into the next chunk). -/
def overlapWindow (overlap : Nat) (t : Text) : Text :=
  lstrip (takeLast (min overlap t.length) t)

/-- The chunk at position `k` of a build run (a dummy when out of range). -/
def chunkAt (ps : List Text) (maxSize overlap k : Nat) : Chunk :=
  (chunkParagraphs ps maxSize overlap)[k]?.getD ⟨0, [], 0, ""⟩

/-- Follows the specification's wording for the Paragraph Segmenter:
"splits on paragraph breaks, trims each candidate, discards any paragraph
shorter than `min_len`" — with no separate non-emptiness filter.  Used to
compare `split_into_paragraphs` against its specification. -/
def segmentSpec (text : Text) (minLen : Nat) : List Text :=
  ((splitOn '\n' text).map strip).filter (fun p => decide (minLen ≤ p.length))

/-! ## Vector store (`src/vector_store.py`)

The Milvus backend is an external dependency; the fields of its collection
and of the search hits are mirrored, and the backend's documented behaviour
(at most `top_k` hits, ranked by non-increasing inner-product score, drawn
from the stored records) is an explicit contract on an oracle argument.
Scores are real numbers carried opaquely by the code; they are modelled as
rationals, which is faithful for every property below, none of which
depends on float rounding. -/

structure IndexRecord where
  chunk_id : Int
  chunk_text : Text
  text_length : Int
  embedding : List ℚ
deriving DecidableEq, Repr

structure CollectionState where
  records : List IndexRecord
deriving DecidableEq, Repr

/-- `MedicalVectorStore`: `collection = none` models the state before
`create_collection`/`load`, where `hasattr(self, 'collection')` is false. -/
structure StoreState where
  collection : Option CollectionState
deriving DecidableEq, Repr

/-- One hit returned by `collection.search` with its output fields. -/
structure Hit where
  chunk_id : Int
  chunk_text : Text
  text_length : Int
  score : ℚ
deriving DecidableEq, Repr

/-- The per-hit dictionary built in `search_similar_chunks`. -/
structure QueryResult where
  chunk_id : Int
  text : Text
  length : Int
  similarity_score : ℚ
  distance : ℚ
deriving DecidableEq, Repr

def formatHit (h : Hit) : QueryResult :=
  ⟨h.chunk_id, h.chunk_text, h.text_length, h.score, 1 - h.score⟩

/-- The hit list is ranked by non-increasing similarity score. -/
@[reducible] def backendOrdered (hits : List Hit) : Prop :=
  hits.Pairwise (fun a b => b.score ≤ a.score)

/-- Documented contract of `collection.search(..., limit=top_k)`: at most
`top_k` hits, ranked by non-increasing score, each hit carrying the output
fields of a stored record.  Milvus documents no tie-breaking rule. -/
@[reducible] def backendContract (recs : List IndexRecord) (topK : Nat) (hits : List Hit) : Prop :=
  hits.length ≤ topK ∧ backendOrdered hits ∧
    ∀ h ∈ hits, ∃ r ∈ recs, h.chunk_id = r.chunk_id ∧
      h.chunk_text = r.chunk_text ∧ h.text_length = r.text_length

/-- True iff the value models a raised Python exception. -/
def isRaised {α : Type} (e : Except String α) : Bool :=
  match e with
  | .error _ => true
  | .ok _ => false

/-- `MedicalVectorStore.search_similar_chunks`: if the collection is absent
or empty, print a warning and return `[]`; otherwise format the backend's
hits in order.  `hits` is the oracle response of `collection.search` for
the encoded query with `limit = topK`. -/
def searchSimilarChunks (store : StoreState) (hits : List Hit) (topK : Nat) :
    Except String (List QueryResult) :=
  match store.collection with
  | none => Except.ok []
  | some coll =>
    if coll.records.isEmpty then Except.ok []
    else Except.ok (hits.map formatHit)

/-- One entry of the JSON chunk file read by `insert_chunks_from_file`;
`embedding = none` models a chunk dictionary without an `'embedding'` key. -/
structure RawChunk where
  chunk_id : Int
  text : Text
  length : Int
  embedding : Option (List ℚ)
deriving DecidableEq, Repr

/-- `MedicalVectorStore.insert_chunks_from_file` (from the parsed JSON list
onward): collect ids, texts, lengths and the embeddings that are present;
if any chunk lacked an embedding the collected embedding list is shorter
than the chunk list and the function returns `False` before inserting;
otherwise insert all records.  A missing collection attribute raises and is
caught, returning `False` with the store unchanged. -/
def insertChunksFromFile (store : StoreState) (chunksData : List RawChunk) :
    Bool × StoreState :=
  let embeddings := chunksData.filterMap (fun c => c.embedding)
  if embeddings.length ≠ chunksData.length then (false, store)
  else
    match store.collection with
    | none => (false, store)
    | some coll =>
      (true, ⟨some ⟨coll.records ++ chunksData.map (fun c =>
        ⟨c.chunk_id, c.text, c.length, c.embedding.getD []⟩)⟩⟩)

/-! ## Generator (`src/generator.py`)

The language model is external; its completion for the built prompt is the
oracle argument `modelAnswer`.  The retriever's output for the question is
the oracle argument `retrieved` (only consulted when a retriever exists). -/

structure ContextInfo where
  chunk_id : Int
  content_preview : Text
  similarity : ℚ
deriving DecidableEq, Repr

/-- `round(q, 4)`.  (Python rounds half-to-even; the difference to `round`
is confined to exact ties and is irrelevant to the claims below.) -/
def round4 (q : ℚ) : ℚ := (round (q * 10000) : ℚ) / 10000

/-- The dictionary returned by `MedicalRAGGenerator.ask`. -/
inductive AskResult where
  | err (message : String)
  | noResults (question : Text) (answer : String) (contexts : List ContextInfo)
  | answered (question : Text) (answer : Text) (contexts : List ContextInfo)
      (retrieved_count : Nat)
deriving DecidableEq, Repr

/-- `MedicalRAGGenerator.generate_from_context`: an empty context list gets
the fixed apology; otherwise the model's completion is returned. -/
def genFromContext (contextChunks : List Text) (modelAnswer : Text) : Text :=
  if contextChunks.isEmpty then "抱歉，未检索到相关的医学资料，无法回答此问题。".toList
  else modelAnswer

/-- `MedicalRAGGenerator.ask`: without a retriever, return the error
dictionary at once; otherwise retrieve, then either report no results or
generate from the top three retrieved chunks. -/
def ask (retriever : Option StoreState) (question : Text)
    (retrieved : List QueryResult) (modelAnswer : Text) : AskResult :=
  match retriever with
  | none => AskResult.err "未提供检索器，无法进行知识检索。"
  | some _ =>
    if retrieved.isEmpty then
      AskResult.noResults question "未找到相关的医学资料。" []
    else
      AskResult.answered question
        (genFromContext ((retrieved.take 3).map (fun c => c.text)) modelAnswer)
        ((retrieved.take 3).map (fun c =>
          ⟨c.chunk_id, c.text.take 150 ++ "...".toList, round4 c.similarity_score⟩))
        retrieved.length

/-! ## Invariants used to verify the chunk builder -/

/-- What the specification (amended) guarantees for an emitted chunk:
non-empty text of length at most `B`. -/
def chunkOK (B : Nat) (c : Chunk) : Prop := c.text ≠ [] ∧ c.text.length ≤ B

/-- Invariant of the running buffer of `chunk_paragraphs`.  Either the
buffer is empty with zero tracked length, or it is non-empty, ends in a
non-whitespace character and satisfies one of:
* accumulation mode: the tracked length is within budget and the true
  length exceeds the tracked length only by the uncounted joining spaces
  (at most one per tracked character);
* oversized seed: the tracked length is exact and bounded by `B` (an
  overlap-seeded buffer or an oversized single sentence). -/
def bufOK (M B : Nat) (cur : Text) (curLen : Nat) : Prop :=
  (cur = [] ∧ curLen = 0) ∨
    (cur ≠ [] ∧ endsNonWS cur = true ∧
      ((curLen ≤ M ∧ cur.length + 1 ≤ 2 * curLen) ∨
        (M < curLen ∧ cur.length = curLen ∧ curLen ≤ B)))

/-- A recorded overlap event that has been fully established: both chunks
exist and the later one starts with the overlap window of the earlier. -/
def evDone (O : Nat) (chunks : List Chunk) (e : Nat × Text) : Prop :=
  ∃ ck ck', chunks[e.1]? = some ck ∧ chunks[e.1 + 1]? = some ck' ∧
    ck'.text.take (overlapWindow O ck.text).length = overlapWindow O ck.text

/-- A recorded overlap event whose follow-up chunk is still in the buffer:
the flushed chunk is the last one, the overlap text's left-trim is its
window, and the buffer extends the overlap text. -/
def evPending (O : Nat) (st : BState) (k : Nat) (ot : Text) : Prop :=
  st.chunks.length = k + 1 ∧
    (∃ ck, st.chunks[k]? = some ck ∧ lstrip ot = overlapWindow O ck.text) ∧
    hasNonWS ot = true ∧ ∃ rest, st.cur = ot ++ ' ' :: rest

/-- All recorded events are established, except possibly the last, which
may still be pending on the current buffer. -/
def evInv (O : Nat) (st : BState) : Prop :=
  (∀ e ∈ st.events, evDone O st.chunks e) ∨
    (∃ pre k ot, st.events = pre ++ [(k, ot)] ∧
      (∀ e ∈ pre, evDone O st.chunks e) ∧ evPending O st k ot)

/-- The full loop invariant of `chunk_paragraphs`. -/
def buildInv (M O B : Nat) (st : BState) : Prop :=
  st.cid = st.chunks.length ∧ bufOK M B st.cur st.curLen ∧
    (∀ c ∈ st.chunks, chunkOK B c) ∧ evInv O st

/-! ## Helper lemmas -/

theorem length_filterMap_lt_of_none {α β : Type} (f : α → Option β) :
    ∀ l : List α, (∃ a ∈ l, f a = none) → (l.filterMap f).length < l.length := by
  intro l
  induction l with
  | nil => rintro ⟨a, ha, _⟩; cases ha
  | cons b t ih =>
    rintro ⟨a, ha, hfa⟩
    cases hfb : f b with
    | none =>
      rw [List.filterMap_cons_none hfb]
      exact Nat.lt_succ_of_le (List.length_filterMap_le f t)
    | some v =>
      rw [List.filterMap_cons_some hfb]
      rcases List.mem_cons.mp ha with rfl | hat
      · rw [hfb] at hfa; cases hfa
      · simpa using ih ⟨a, hat, hfa⟩

/-! ### Whitespace, strip and takeLast lemmas -/

theorem mem_dropWhile_of_not {p : Char → Bool} :
    ∀ {l : Text} {a : Char}, a ∈ l → p a = false → a ∈ l.dropWhile p := by
  intro l
  induction l with
  | nil => intro a h _; cases h
  | cons c t ih =>
    intro a h hpa
    cases hpc : p c with
    | true =>
      rw [List.dropWhile_cons_of_pos hpc]
      rcases List.mem_cons.mp h with rfl | ht
      · rw [hpa] at hpc; cases hpc
      · exact ih ht hpa
    | false =>
      rw [List.dropWhile_cons_of_neg (by simp [hpc])]
      exact h

theorem strip_length_le (s : Text) : (strip s).length ≤ s.length := by
  unfold strip rstrip lstrip
  rw [List.length_reverse]
  calc ((s.dropWhile isWS).reverse.dropWhile isWS).length
      ≤ (s.dropWhile isWS).reverse.length := (List.dropWhile_sublist _).length_le
    _ = (s.dropWhile isWS).length := List.length_reverse _
    _ ≤ s.length := (List.dropWhile_sublist _).length_le

theorem strip_ne_nil {s : Text} (h : hasNonWS s = true) : strip s ≠ [] := by
  obtain ⟨c, hc, hnc⟩ := List.any_eq_true.mp h
  have hnc' : isWS c = false := by simpa using hnc
  have h1 : c ∈ lstrip s := mem_dropWhile_of_not hc hnc'
  have h3 : c ∈ (lstrip s).reverse.dropWhile isWS :=
    mem_dropWhile_of_not (List.mem_reverse.mpr h1) hnc'
  exact List.ne_nil_of_mem (List.mem_reverse.mpr h3)

theorem endsNonWS_hasNonWS {s : Text} (h : endsNonWS s = true) : hasNonWS s = true := by
  unfold endsNonWS at h
  cases hl : s.getLast? with
  | none => rw [hl] at h; cases h
  | some c =>
    rw [hl] at h
    simp only [Option.map_some', Option.getD_some] at h
    exact List.any_eq_true.mpr ⟨c, List.mem_of_mem_getLast? hl, h⟩

theorem endsNonWS_ne_nil {s : Text} (h : endsNonWS s = true) : s ≠ [] := by
  intro e; subst e; simp [endsNonWS] at h

theorem getLast?_append_right {a b : Text} (h : b ≠ []) :
    (a ++ b).getLast? = b.getLast? := by
  rw [List.getLast?_append]
  cases hb : b.getLast? with
  | none => exact absurd (List.getLast?_eq_none_iff.mp hb) h
  | some c => rfl

theorem endsNonWS_append_right {a b : Text} (hb : b ≠ []) :
    endsNonWS (a ++ b) = endsNonWS b := by
  unfold endsNonWS
  rw [getLast?_append_right hb]

theorem endsNonWS_append {a b : Text} (h : endsNonWS b = true) :
    endsNonWS (a ++ b) = true := by
  rw [endsNonWS_append_right (endsNonWS_ne_nil h)]
  exact h

theorem rstrip_eq_self {s : Text} (h : endsNonWS s = true) : rstrip s = s := by
  unfold endsNonWS at h
  cases hl : s.getLast? with
  | none => rw [hl] at h; cases h
  | some c =>
    rw [hl] at h
    simp only [Option.map_some', Option.getD_some] at h
    have hrev : s.reverse.head? = some c := by rw [List.head?_reverse, hl]
    obtain ⟨t, ht⟩ := List.head?_eq_some_iff.mp hrev
    unfold rstrip
    rw [ht, List.dropWhile_cons_of_neg (by simp_all), ← ht, List.reverse_reverse]

theorem lstrip_ne_nil {s : Text} (h : hasNonWS s = true) : lstrip s ≠ [] := by
  obtain ⟨c, hc, hnc⟩ := List.any_eq_true.mp h
  exact List.ne_nil_of_mem (mem_dropWhile_of_not hc (by simpa using hnc))

theorem strip_eq_lstrip {s : Text} (h : endsNonWS s = true) : strip s = lstrip s := by
  unfold strip
  apply rstrip_eq_self
  have hl : lstrip s ≠ [] := lstrip_ne_nil (endsNonWS_hasNonWS h)
  have ht : s = s.takeWhile isWS ++ lstrip s :=
    (List.takeWhile_append_dropWhile isWS s).symm
  unfold endsNonWS at h ⊢
  rw [show s.getLast? = (s.takeWhile isWS ++ lstrip s).getLast? from by rw [← ht]] at h
  rwa [getLast?_append_right hl] at h

theorem lstrip_append_hasNonWS {a b : Text} (h : hasNonWS a = true) :
    lstrip (a ++ b) = lstrip a ++ b := by
  unfold lstrip
  rw [List.dropWhile_append]
  have hne : (a.dropWhile isWS).isEmpty = false := by
    cases hdw : a.dropWhile isWS with
    | nil => exact absurd hdw (lstrip_ne_nil h)
    | cons x xs => rfl
  simp [hne]

theorem lstrip_append_allWS {a b : Text} (h : ∀ c ∈ a, isWS c = true) :
    lstrip (a ++ b) = lstrip b :=
  List.dropWhile_append_of_pos h

theorem lstrip_idem (s : Text) : lstrip (lstrip s) = lstrip s := by
  induction s with
  | nil => rfl
  | cons c t ih =>
    unfold lstrip at ih ⊢
    cases hc : isWS c with
    | false =>
      rw [List.dropWhile_cons_of_neg (by simp [hc]),
        List.dropWhile_cons_of_neg (by simp [hc])]
    | true =>
      rw [List.dropWhile_cons_of_pos hc]
      exact ih

theorem takeLast_length (n : Nat) (s : Text) : (takeLast n s).length = min n s.length := by
  unfold takeLast
  rw [List.length_drop]
  omega

theorem takeLast_eq_self {n : Nat} {s : Text} (h : s.length ≤ n) : takeLast n s = s := by
  unfold takeLast
  rw [Nat.sub_eq_zero_of_le h, List.drop_zero]

theorem drop_append_le : ∀ (k : Nat) (a b : Text), k ≤ a.length →
    (a ++ b).drop k = a.drop k ++ b := by
  intro k
  induction k with
  | zero => intro a b _; simp
  | succ k ih =>
    intro a b h
    cases a with
    | nil => simp at h
    | cons c t => simpa using ih t b (by simpa using h)

theorem takeLast_append_of_le {n : Nat} {a b : Text} (h : n ≤ b.length) :
    takeLast n (a ++ b) = takeLast n b := by
  unfold takeLast
  rw [List.length_append]
  have h2 : a.length + b.length - n = a.length + (b.length - n) := by omega
  rw [h2, ← List.drop_drop, List.drop_left]

theorem takeLast_append_of_ge {n : Nat} {a b : Text} (h : b.length ≤ n) :
    takeLast n (a ++ b) = a.drop (a.length + b.length - n) ++ b := by
  unfold takeLast
  rw [List.length_append, drop_append_le _ _ _ (by omega)]

theorem takeLast_ne_nil {n : Nat} {s : Text} (hn : 1 ≤ n) (hs : s ≠ []) :
    takeLast n s ≠ [] := by
  have hlen := takeLast_length n s
  have hpos : 0 < s.length := List.length_pos.mpr hs
  intro e
  rw [e] at hlen
  simp only [List.length_nil] at hlen
  omega

theorem getLast?_takeLast {n : Nat} {s : Text} (hn : 1 ≤ n) (hs : s ≠ []) :
    (takeLast n s).getLast? = s.getLast? := by
  have hne : takeLast n s ≠ [] := takeLast_ne_nil hn hs
  calc (takeLast n s).getLast?
      = (s.take (s.length - n) ++ takeLast n s).getLast? :=
        (getLast?_append_right hne).symm
    _ = s.getLast? := by rw [takeLast, List.take_append_drop]

theorem endsNonWS_takeLast {n : Nat} {s : Text} (hn : 1 ≤ n) (h : endsNonWS s = true) :
    endsNonWS (takeLast n s) = true := by
  unfold endsNonWS at h ⊢
  rwa [getLast?_takeLast hn (by
    intro e; subst e; simp at h)]

/-- The key overlap-window equation: the left-trim of the overlap text the
builder takes from the *unstripped* buffer equals the specification's
window on the *stripped* buffer (the emitted chunk's text). -/
theorem window_eq {buf : Text} {O : Nat} (hE : endsNonWS buf = true) (hO : 1 ≤ O) :
    lstrip (if O < buf.length then takeLast O buf else buf) =
      overlapWindow O (strip buf) := by
  have hnw : hasNonWS buf = true := endsNonWS_hasNonWS hE
  have hsl : strip buf = lstrip buf := strip_eq_lstrip hE
  have hdecomp : buf = buf.takeWhile isWS ++ lstrip buf :=
    (List.takeWhile_append_dropWhile isWS buf).symm
  have hws : ∀ c ∈ buf.takeWhile isWS, isWS c = true :=
    fun c hc => List.mem_takeWhile_imp hc
  have hli : lstrip (lstrip buf) = lstrip buf := lstrip_idem buf
  rw [hsl, overlapWindow]
  by_cases hOc : O ≤ (lstrip buf).length
  · rw [Nat.min_eq_left hOc]
    by_cases hlt : O < buf.length
    · rw [if_pos hlt]
      conv_lhs => rw [hdecomp]
      rw [takeLast_append_of_le hOc]
    · rw [if_neg hlt]
      have h1 : (lstrip buf).length ≤ buf.length := (List.dropWhile_sublist isWS).length_le
      rw [takeLast_eq_self (by omega)]
      rw [hli]
  · have hOc' : (lstrip buf).length < O := Nat.lt_of_not_le hOc
    rw [Nat.min_eq_right (Nat.le_of_lt hOc'), takeLast_eq_self (Nat.le_refl _), hli]
    by_cases hlt : O < buf.length
    · rw [if_pos hlt]
      conv_lhs => rw [hdecomp]
      rw [takeLast_append_of_ge (Nat.le_of_lt hOc'),
        lstrip_append_allWS (fun c hc => hws c (List.drop_subset _ _ hc))]
      exact hli
    · rw [if_neg hlt]

/-! ### Sentence-piece lemmas -/

theorem isSentEnd_not_ws {c : Char} (h : isSentEnd c = true) : isWS c = false := by
  have h3 : c = '.' ∨ c = '!' ∨ c = '?' := by
    simpa [isSentEnd, or_assoc] using h
  rcases h3 with rfl | rfl | rfl <;> rfl

theorem endsNonWS_of_strip_eq {p : Text} (h : strip p = p) (hne : p ≠ []) :
    endsNonWS p = true := by
  have h1 : rstrip (lstrip p) = p := h
  have h2 : rstrip (lstrip p) ≠ [] := by rw [h1]; exact hne
  rw [← h1]
  unfold rstrip endsNonWS
  rw [List.getLast?_reverse]
  cases hd : ((lstrip p).reverse.dropWhile isWS).head? with
  | none =>
    have hnil : (lstrip p).reverse.dropWhile isWS = [] := List.head?_eq_none_iff.mp hd
    unfold rstrip at h2
    rw [hnil] at h2
    simp at h2
  | some c =>
    have hnc : isWS c = false := by
      have hw := List.head?_dropWhile_not isWS (lstrip p).reverse
      rw [hd] at hw
      exact hw
    simp [hnc]

theorem sentSplitAux_pieces :
    ∀ (rest : Text) (inSep : Bool) (acc : Text),
      endsNonWS (acc.reverse ++ rest) = true →
      ∀ s ∈ sentSplitAux inSep acc rest, s ≠ [] ∧ endsNonWS s = true := by
  intro rest
  induction rest with
  | nil =>
    intro inSep acc h s hs
    simp only [sentSplitAux, List.mem_singleton] at hs
    subst hs
    rw [List.append_nil] at h
    exact ⟨endsNonWS_ne_nil h, h⟩
  | cons c rest' ih =>
    intro inSep acc h s hs
    have hrne_of_ws : isWS c = true → rest' ≠ [] := by
      intro hwc e
      subst e
      rw [show acc.reverse ++ [c] = acc.reverse ++ [c] from rfl] at h
      unfold endsNonWS at h
      rw [List.getLast?_concat] at h
      simp [hwc] at h
    have htrans : isWS c = true → ∀ x : Text, endsNonWS (x ++ rest') = true := by
      intro hwc x
      have hrne := hrne_of_ws hwc
      rw [endsNonWS_append_right hrne]
      have h' := h
      rw [show acc.reverse ++ c :: rest' = (acc.reverse ++ [c]) ++ rest' from by simp] at h'
      rwa [endsNonWS_append_right hrne] at h'
    simp only [sentSplitAux] at hs
    by_cases h1 : (inSep && isWS c) = true
    · rw [if_pos h1] at hs
      exact ih true acc (htrans (Bool.and_eq_true_iff.mp h1).2 acc.reverse) s hs
    · rw [if_neg h1] at hs
      by_cases h2 : (isWS c && (acc.head?.map isSentEnd).getD false) = true
      · rw [if_pos h2] at hs
        obtain ⟨hwc, hpunct⟩ := Bool.and_eq_true_iff.mp h2
        cases hacc : acc.head? with
        | none => rw [hacc] at hpunct; simp at hpunct
        | some q =>
          rw [hacc] at hpunct
          simp only [Option.map_some', Option.getD_some] at hpunct
          obtain ⟨t, hat⟩ := List.head?_eq_some_iff.mp hacc
          rcases List.mem_cons.mp hs with rfl | hs'
          · refine ⟨by subst hat; simp, ?_⟩
            unfold endsNonWS
            rw [List.getLast?_reverse, hacc]
            simp [isSentEnd_not_ws hpunct]
          · exact ih true [] (by simpa using htrans hwc []) s hs'
      · rw [if_neg h2] at hs
        have h' : endsNonWS ((c :: acc).reverse ++ rest') = true := by
          rw [List.reverse_cons, List.append_assoc]
          simpa using h
        exact ih false (c :: acc) h' s hs

theorem sentSplit_pieces {p : Text} (hne : p ≠ []) (hstr : strip p = p) :
    ∀ s ∈ sentSplit p, s ≠ [] ∧ endsNonWS s = true := by
  have hE : endsNonWS p = true := endsNonWS_of_strip_eq hstr hne
  exact fun s hs => sentSplitAux_pieces p false [] (by simpa using hE) s hs

theorem le_foldr_max {a : Nat} : ∀ {l : List Nat}, a ∈ l → a ≤ l.foldr max 0 := by
  intro l
  induction l with
  | nil => intro h; cases h
  | cons b t ih =>
    intro h
    rcases List.mem_cons.mp h with rfl | ht
    · exact Nat.le_max_left _ _
    · exact Nat.le_trans (ih ht) (Nat.le_max_right _ _)

theorem le_maxOverLen {ps : List Text} {p s : Text} {M : Nat}
    (hp : p ∈ ps) (hs : s ∈ sentSplit p) (hM : M < s.length) :
    s.length ≤ maxOverLen ps M := by
  unfold maxOverLen
  apply le_foldr_max
  apply List.mem_filter.mpr
  refine ⟨?_, by simpa using hM⟩
  exact List.mem_map_of_mem _
    (List.mem_flatten.mpr ⟨sentSplit p, List.mem_map_of_mem sentSplit hp, hs⟩)

theorem endsNonWS_cons {c : Char} {b : Text} (h : endsNonWS b = true) :
    endsNonWS (c :: b) = true := by
  rw [show c :: b = [c] ++ b from rfl]
  exact endsNonWS_append h

/-! ### Preservation of the chunk-builder invariant -/

/-- Flushing a buffer that satisfies the buffer invariant yields a valid
chunk, provided `2 * maxSize ≤ B`. -/
theorem chunkOK_of_buf {M B : Nat} {cur : Text} {curLen : Nat}
    (h : bufOK M B cur curLen) (hne : cur ≠ []) (hMB : 2 * M ≤ B)
    (cid : Nat) (tag : String) : chunkOK B (mkChunk cid cur tag) := by
  rcases h with ⟨rfl, _⟩ | ⟨_, hE, hcase⟩
  · exact absurd rfl hne
  · refine ⟨strip_ne_nil (endsNonWS_hasNonWS hE), ?_⟩
    show (strip cur).length ≤ B
    have hle := strip_length_le cur
    rcases hcase with ⟨hm, hlen⟩ | ⟨_, hlen, hb⟩ <;> omega

/-- The buffer invariant for a buffer that ends in a non-whitespace
character and whose tracked length is exact and within `B`. -/
theorem bufOK_exact {M B : Nat} {cur : Text} (hne : cur ≠ [])
    (hE : endsNonWS cur = true) (hle : cur.length ≤ B) :
    bufOK M B cur cur.length := by
  have hpos : 1 ≤ cur.length := List.length_pos.mpr hne
  by_cases hm : cur.length ≤ M
  · exact Or.inr ⟨hne, hE, Or.inl ⟨hm, by omega⟩⟩
  · exact Or.inr ⟨hne, hE, Or.inr ⟨by omega, rfl, hle⟩⟩

/-- Every chunk emitted by the sentence-packing loop is valid, and the
leftover `sub_chunk` is either empty or a valid seed. -/
theorem packSentences_ok {M B : Nat} (tag : String) (hMB : M + 1 ≤ B) :
    ∀ (ss : List Text) (sub : Text) (cid : Nat),
      (∀ s ∈ ss, s ≠ [] ∧ endsNonWS s = true ∧ s.length ≤ B) →
      (sub = [] ∨ (endsNonWS sub = true ∧ sub.length ≤ B)) →
      (∀ c ∈ (packSentences M tag ss sub cid).1, chunkOK B c) ∧
        ((packSentences M tag ss sub cid).2.1 = [] ∨
          (endsNonWS (packSentences M tag ss sub cid).2.1 = true ∧
            (packSentences M tag ss sub cid).2.1.length ≤ B)) := by
  intro ss
  induction ss with
  | nil =>
    intro sub cid _ hsub
    exact ⟨fun c hc => absurd hc (List.not_mem_nil c), hsub⟩
  | cons sent rest ih =>
    intro sub cid hss hsub
    obtain ⟨hs1, hs2, hs3⟩ := hss sent (List.mem_cons_self _ _)
    have hrest := fun s hs => hss s (List.mem_cons_of_mem sent hs)
    simp only [packSentences]
    split
    · rename_i hfit
      apply ih _ cid hrest
      by_cases hse : sub.isEmpty
      · rw [if_pos hse]
        exact Or.inr ⟨hs2, hs3⟩
      · rw [if_neg hse]
        refine Or.inr ⟨endsNonWS_append (endsNonWS_cons hs2), ?_⟩
        simp only [List.length_append, List.length_cons]
        omega
    · split
      · exact ih sent cid hrest (Or.inr ⟨hs2, hs3⟩)
      · rename_i hnfit hsne
        have hsub' : endsNonWS sub = true ∧ sub.length ≤ B := by
          rcases hsub with rfl | h
          · simp at hsne
          · exact h
        obtain ⟨ihc, ihs⟩ := ih sent (cid + 1) hrest (Or.inr ⟨hs2, hs3⟩)
        constructor
        · intro c hc
          rcases List.mem_cons.mp hc with rfl | hc'
          · exact ⟨strip_ne_nil (endsNonWS_hasNonWS hsub'.1),
              Nat.le_trans (strip_length_le sub) hsub'.2⟩
          · exact ihc c hc'
        · exact ihs

theorem evDone_append {O : Nat} {chunks l : List Chunk} {e : Nat × Text}
    (h : evDone O chunks e) : evDone O (chunks ++ l) e := by
  obtain ⟨ck, ck', h1, h2, h3⟩ := h
  have hlt' : e.1 + 1 < chunks.length := (List.getElem?_eq_some_iff.mp h2).1
  exact ⟨ck, ck', by rw [List.getElem?_append_left (by omega)]; exact h1,
    by rw [List.getElem?_append_left hlt']; exact h2, h3⟩

/-- Flushing the buffer of a pending overlap event establishes the event:
the freshly emitted chunk starts with the window of the previous chunk. -/
theorem evPending_discharge {O : Nat} {st : BState} {k : Nat} {ot : Text}
    (h : evPending O st k ot) (hE : endsNonWS st.cur = true) (cid : Nat) (tag : String) :
    evDone O (st.chunks ++ [mkChunk cid st.cur tag]) (k, ot) := by
  obtain ⟨hlen, ⟨ck, hck, hwin⟩, hnw, rest, hcur⟩ := h
  refine ⟨ck, mkChunk cid st.cur tag, ?_, ?_, ?_⟩
  · rw [List.getElem?_append_left (by omega)]
    exact hck
  · show (st.chunks ++ [mkChunk cid st.cur tag])[k + 1]? = _
    rw [← hlen]
    exact List.getElem?_concat_length _ _
  · show (strip st.cur).take (overlapWindow O ck.text).length = overlapWindow O ck.text
    rw [strip_eq_lstrip hE, hcur, lstrip_append_hasNonWS hnw, ← hwin]
    exact List.take_left _ _

/-! ## C9: the Text Normalizer is total and maps empty to empty -/

/-- C9: `clean_text` is modelled by the total function `cleanText`, so it
returns for every string input (each `re.sub` stage is total), and on the
empty string it returns the empty string. -/
theorem cleanText_total_and_empty :
    (∀ s : Text, ∃ r : Text, cleanText s = r) ∧ cleanText [] = [] :=
  ⟨fun s => ⟨cleanText s, rfl⟩, rfl⟩

/-! ## C10: ask without a retriever -/

/-- C10: `ask` on a generator constructed without a retriever returns the
error dictionary immediately — the result does not depend on the retrieval
oracle or on the language-model oracle, so no retrieval and no generation
is performed, and no exception is raised. -/
theorem ask_without_retriever (question : Text) (retrieved : List QueryResult)
    (modelAnswer : Text) :
    ask none question retrieved modelAnswer =
      AskResult.err "未提供检索器，无法进行知识检索。" := rfl

/-! ## C3: index-not-ready is not raised but returned as an empty list -/

/-- C3 counterexample: on a store whose collection was never created or
loaded, `search_similar_chunks` returns the ordinary empty result sequence
and raises nothing, so the index-not-ready condition is *not* propagated as
a failure, contrary to the claim. -/
theorem search_not_ready_counterexample :
    searchSimilarChunks ⟨none⟩ [] 5 = Except.ok [] ∧
    isRaised (searchSimilarChunks ⟨none⟩ [] 5) = false :=
  ⟨rfl, rfl⟩

/-- C3 amended: an index-not-ready condition is reported to the caller as
the empty result sequence — the same signal as a query with no results —
and never as a raised failure. -/
theorem search_not_ready_amended (hits : List Hit) (topK : Nat) :
    searchSimilarChunks ⟨none⟩ hits topK = Except.ok [] ∧
    isRaised (searchSimilarChunks ⟨none⟩ hits topK) = false :=
  ⟨rfl, rfl⟩

/-! ## C4: result ordering -/

/-- C4 counterexample: a backend response obeying the documented search
contract (two hits with equal scores, drawn from the stored records) for
which `search_similar_chunks` returns the equal-score results in
*descending* `chunk_id` order: the code applies no tie-break of its own. -/
theorem search_tiebreak_counterexample :
    backendContract [⟨0, ['a'], 1, [1]⟩, ⟨1, ['b'], 1, [1]⟩] 2
      [⟨1, ['b'], 1, 1⟩, ⟨0, ['a'], 1, 1⟩] ∧
    searchSimilarChunks ⟨some ⟨[⟨0, ['a'], 1, [1]⟩, ⟨1, ['b'], 1, [1]⟩]⟩⟩
      [⟨1, ['b'], 1, 1⟩, ⟨0, ['a'], 1, 1⟩] 2 =
      Except.ok ([⟨1, ['b'], 1, 1⟩, ⟨0, ['a'], 1, 1⟩].map formatHit) ∧
    (formatHit ⟨1, ['b'], 1, 1⟩).similarity_score =
      (formatHit ⟨0, ['a'], 1, 1⟩).similarity_score ∧
    (formatHit ⟨0, ['a'], 1, 1⟩).chunk_id < (formatHit ⟨1, ['b'], 1, 1⟩).chunk_id :=
  ⟨by decide, rfl, by decide, by decide⟩

/-- C4 amended: the result sequence preserves the backend's hit order;
given the backend contract's ranking guarantee it is sorted by
non-increasing `similarity_score`, but the order of equal-score results is
whatever the backend produced — no ascending-`chunk_id` tie-break is
applied. -/
theorem search_order_amended (store : StoreState) (hits : List Hit) (topK : Nat)
    (hord : backendOrdered hits) :
    ∀ l, searchSimilarChunks store hits topK = Except.ok l →
      l.Pairwise (fun a b => b.similarity_score ≤ a.similarity_score) := by
  intro l hl
  rcases store with ⟨_ | coll⟩
  · rw [show searchSimilarChunks ⟨none⟩ hits topK = Except.ok [] from rfl] at hl
    cases hl
    exact List.Pairwise.nil
  · unfold searchSimilarChunks at hl
    by_cases hemp : coll.records.isEmpty
    · simp only [hemp, if_true] at hl
      cases hl
      exact List.Pairwise.nil
    · simp only [hemp, if_false] at hl
      cases hl
      exact hord.map formatHit (fun a b h => h)

/-- C4 amended, witness at a loaded two-record store. -/
theorem search_order_amended_witness :
    backendOrdered [⟨0, ['a'], 1, 2⟩, ⟨1, ['b'], 1, 1⟩] ∧
    ([⟨0, ['a'], 1, 2⟩, ⟨1, ['b'], 1, 1⟩].map formatHit).Pairwise
      (fun a b => b.similarity_score ≤ a.similarity_score) :=
  ⟨by decide,
    search_order_amended ⟨some ⟨[⟨0, ['a'], 1, [1]⟩]⟩⟩
      [⟨0, ['a'], 1, 2⟩, ⟨1, ['b'], 1, 1⟩] 2 (by decide) _ rfl⟩

/-! ## C5: batch insert is atomic on missing embeddings -/

/-- C5: if any chunk in the batch lacks an embedding, the collected
embedding list is strictly shorter than the batch, the pre-insert
completeness check fails, and `insert_chunks_from_file` returns `False`
leaving the store untouched — no partial commit. -/
theorem insert_aborts_on_missing_embedding (store : StoreState)
    (chunksData : List RawChunk)
    (h : chunksData.any (fun c => c.embedding.isNone) = true) :
    insertChunksFromFile store chunksData = (false, store) := by
  obtain ⟨c, hc, hnone⟩ := List.any_eq_true.mp h
  have hlt : (chunksData.filterMap (fun c => c.embedding)).length < chunksData.length :=
    length_filterMap_lt_of_none _ chunksData ⟨c, hc, Option.isNone_iff_eq_none.mp hnone⟩
  unfold insertChunksFromFile
  rw [if_pos (Nat.ne_of_lt hlt)]

/-- C5 witness: a batch with one embedding-less chunk against a loaded
store aborts with the store unchanged. -/
theorem insert_aborts_witness :
    ([⟨0, ['a'], 1, none⟩] : List RawChunk).any (fun c => c.embedding.isNone) = true ∧
    insertChunksFromFile ⟨some ⟨[]⟩⟩ [⟨0, ['a'], 1, none⟩] = (false, ⟨some ⟨[]⟩⟩) :=
  ⟨rfl, insert_aborts_on_missing_embedding ⟨some ⟨[]⟩⟩ [⟨0, ['a'], 1, none⟩] rfl⟩

/-! ## C7: the Paragraph Segmenter -/

/-- C7 counterexample: with `min_len = 0` the claim's "exactly the trimmed
paragraphs whose length is at least `min_len`" (`segmentSpec`) keeps the
paragraph that trims to the empty string, but `split_into_paragraphs`
discards it. -/
theorem splitIntoParagraphs_counterexample :
    splitIntoParagraphs "a\n\nb".toList 0 = [['a'], ['b']] ∧
    segmentSpec "a\n\nb".toList 0 = [['a'], [], ['b']] ∧
    splitIntoParagraphs "a\n\nb".toList 0 ≠ segmentSpec "a\n\nb".toList 0 := by
  refine ⟨by decide, by decide, by decide⟩

/-- C7 amended: the segmenter returns, in input order, exactly the trimmed
paragraphs that are non-empty and of length at least `min_len`; for
`min_len ≥ 1` this coincides with the claim's description, and if every
trimmed paragraph is shorter than `min_len` the result is empty. -/
theorem splitIntoParagraphs_amended (text : Text) (minLen : Nat) :
    splitIntoParagraphs text minLen =
      ((splitOn '\n' text).map strip).filter
        (fun p => decide (minLen ≤ p.length) && !p.isEmpty) ∧
    (1 ≤ minLen → splitIntoParagraphs text minLen = segmentSpec text minLen) ∧
    (((splitOn '\n' text).map strip).all (fun p => decide (p.length < minLen)) = true →
      splitIntoParagraphs text minLen = []) := by
  refine ⟨List.filter_filter _ _, fun hmin => ?_, fun hall => ?_⟩
  · rw [splitIntoParagraphs, List.filter_filter]
    refine List.filter_congr (fun p _ => ?_)
    by_cases hp : minLen ≤ p.length
    · have hlen : 1 ≤ p.length := le_trans hmin hp
      have hne : p.isEmpty = false := by
        cases p with
        | nil => simp at hlen
        | cons c t => rfl
      simp [hp, hne]
    · simp [hp]
  · rw [splitIntoParagraphs, List.filter_filter]
    refine List.filter_eq_nil_iff.mpr (fun p hp => ?_)
    have := List.all_eq_true.mp hall p hp
    simp only [decide_eq_true_eq] at this
    simp [Nat.not_le.mpr this]

/-- C7 amended, witness: all paragraphs below the default threshold give
the empty sequence, and the filter characterisation holds concretely. -/
theorem splitIntoParagraphs_amended_witness :
    (1 ≤ 50) ∧ splitIntoParagraphs "abc\nde".toList 50 = segmentSpec "abc\nde".toList 50 ∧
    ((splitOn '\n' "abc\nde".toList).map strip).all (fun p => decide (p.length < 50)) = true ∧
    splitIntoParagraphs "abc\nde".toList 50 = [] :=
  ⟨by decide, (splitIntoParagraphs_amended "abc\nde".toList 50).2.1 (by decide),
    by decide, (splitIntoParagraphs_amended "abc\nde".toList 50).2.2 (by decide)⟩

/-! ## C8: empty or unloaded index, and the top-k bound -/

/-- C8: on an absent or empty collection, search returns the empty
sequence without raising; and whenever the backend honours its
`limit = top_k` contract, the formatted result sequence has at most
`top_k` entries. -/
theorem search_empty_ok_and_topk (store : StoreState) (hits : List Hit) (topK : Nat) :
    searchSimilarChunks ⟨none⟩ hits topK = Except.ok [] ∧
    searchSimilarChunks ⟨some ⟨[]⟩⟩ hits topK = Except.ok [] ∧
    (hits.length ≤ topK →
      ∀ l, searchSimilarChunks store hits topK = Except.ok l → l.length ≤ topK) := by
  refine ⟨rfl, rfl, fun hle l hl => ?_⟩
  rcases store with ⟨_ | coll⟩
  · rw [show searchSimilarChunks ⟨none⟩ hits topK = Except.ok [] from rfl] at hl
    cases hl
    exact Nat.zero_le _
  · unfold searchSimilarChunks at hl
    by_cases hemp : coll.records.isEmpty
    · simp only [hemp, if_true] at hl
      cases hl
      exact Nat.zero_le _
    · simp only [hemp, if_false] at hl
      cases hl
      simpa using hle

/-- C8 witness: a loaded one-record store with one in-budget hit. -/
theorem search_empty_ok_and_topk_witness :
    searchSimilarChunks ⟨some ⟨[⟨0, ['a'], 1, [1]⟩]⟩⟩ [⟨0, ['a'], 1, 1⟩] 1 =
      Except.ok ([(⟨0, ['a'], 1, 1⟩ : Hit)].map formatHit) ∧
    ([(⟨0, ['a'], 1, 1⟩ : Hit)].map formatHit).length ≤ 1 :=
  ⟨rfl,
    (search_empty_ok_and_topk ⟨some ⟨[⟨0, ['a'], 1, [1]⟩]⟩⟩ [⟨0, ['a'], 1, 1⟩] 1).2.2
      (by decide) ([(⟨0, ['a'], 1, 1⟩ : Hit)].map formatHit) rfl⟩

/-! ## C6: chunk ids are the contiguous sequence 0, 1, 2, … -/

/-- `packSentences` hands out consecutive ids starting at `cid` and returns
the next free id. -/
theorem packSentences_ids (maxSize : Nat) (tag : String) :
    ∀ (ss : List Text) (sub : Text) (cid : Nat),
      (packSentences maxSize tag ss sub cid).2.2 =
        cid + (packSentences maxSize tag ss sub cid).1.length ∧
      (packSentences maxSize tag ss sub cid).1.map (·.chunk_id) =
        List.range' cid (packSentences maxSize tag ss sub cid).1.length := by
  intro ss
  induction ss with
  | nil => intro sub cid; exact ⟨rfl, rfl⟩
  | cons sent rest ih =>
    intro sub cid
    simp only [packSentences]
    split
    · exact ih _ cid
    · split
      · exact ih sent cid
      · obtain ⟨h1, h2⟩ := ih sent (cid + 1)
        refine ⟨by simpa [Nat.add_comm, Nat.add_assoc, Nat.add_left_comm] using h1, ?_⟩
        simp only [List.map_cons, h2, List.length_cons, mkChunk]
        rw [List.range'_succ]

/-- Invariant: the next id equals the number of emitted chunks, whose ids
read `0, 1, 2, …` in order. -/
def IdsOK (st : BState) : Prop :=
  st.cid = st.chunks.length ∧
    st.chunks.map (·.chunk_id) = List.range' 0 st.chunks.length

theorem IdsOK_append_one (st : BState) (h : IdsOK st) (buf : Text) (tag : String) :
    (st.chunks ++ [mkChunk st.cid buf tag]).map (·.chunk_id) =
      List.range' 0 (st.chunks ++ [mkChunk st.cid buf tag]).length ∧
    st.cid + 1 = (st.chunks ++ [mkChunk st.cid buf tag]).length := by
  obtain ⟨h1, h2⟩ := h
  constructor
  · rw [List.map_append, h2, List.length_append]
    simp only [mkChunk, List.map_cons, List.map_nil, List.length_cons, List.length_nil]
    rw [h1, List.range'_1_concat]
    simp
  · simp [h1]

theorem bstep_ids (M O : Nat) (st : BState) (ip : Nat × Text) (h : IdsOK st) :
    IdsOK (bstep M O st ip) := by
  obtain ⟨h1, h2⟩ := h
  unfold bstep
  dsimp only
  split
  · -- long-paragraph branch
    have hst1 : ∀ st1 : BState, IdsOK st1 →
        IdsOK (let res := packSentences M (toString ip.1 ++ "(部分)") (sentSplit ip.2) [] st1.cid
          let st2 : BState := { st1 with chunks := st1.chunks ++ res.1, cid := res.2.2 }
          if res.2.1.isEmpty then st2
          else { st2 with cur := res.2.1, curLen := res.2.1.length }) := by
      intro st1 hids
      obtain ⟨g1, g2⟩ := hids
      obtain ⟨p1, p2⟩ := packSentences_ids M (toString ip.1 ++ "(部分)") (sentSplit ip.2) [] st1.cid
      generalize packSentences M (toString ip.1 ++ "(部分)") (sentSplit ip.2) [] st1.cid = pk
        at p1 p2 ⊢
      have hlen : (st1.chunks ++ pk.1).length = st1.chunks.length + pk.1.length :=
        List.length_append _ _
      have hmap : (st1.chunks ++ pk.1).map (·.chunk_id) =
          List.range' 0 (st1.chunks ++ pk.1).length := by
        rw [List.map_append, g2, p2, g1, hlen]
        simpa [Nat.add_comm] using List.range'_append_1 0 st1.chunks.length pk.1.length
      cases hre : pk.2.1.isEmpty <;>
        refine ⟨?_, ?_⟩ <;>
          simp only [hre, Bool.false_eq_true, if_false, if_true] <;>
            first
              | (rw [p1, g1]; exact hlen.symm)
              | exact hmap
    split
    · exact hst1 _ ⟨h1, h2⟩
    · refine hst1 _ ?_
      obtain ⟨hm, hc⟩ := IdsOK_append_one st ⟨h1, h2⟩ st.cur (toString ip.1)
      exact ⟨hc, hm⟩
  · split
    · exact ⟨h1, h2⟩
    · -- overflow branch: possible flush, then reseeding (chunks unchanged after)
      have hst1 : IdsOK (if st.cur.isEmpty then st
          else { st with chunks := st.chunks ++ [mkChunk st.cid st.cur (toString (ip.1 - 1))],
                         cid := st.cid + 1 }) := by
        split
        · exact ⟨h1, h2⟩
        · obtain ⟨hm, hc⟩ := IdsOK_append_one st ⟨h1, h2⟩ st.cur (toString (ip.1 - 1))
          exact ⟨hc, hm⟩
      split
      · exact ⟨hst1.1, hst1.2⟩
      · exact ⟨hst1.1, hst1.2⟩

theorem chunkBuild_ids (ps : List Text) (M O : Nat) : IdsOK (chunkBuild ps M O) := by
  suffices h : ∀ (l : List (Nat × Text)) (st : BState),
      IdsOK st → IdsOK (l.foldl (bstep M O) st) by
    exact h ps.enum initState ⟨rfl, rfl⟩
  intro l
  induction l with
  | nil => exact fun st h => h
  | cons x t ih => exact fun st h => ih _ (bstep_ids M O st x h)

/-- C6: over one build run, the `chunk_id` values of the emitted chunks, in
emission order, are exactly `0, 1, 2, …` — no gaps, repeats or
reordering. -/
theorem chunk_ids_contiguous (ps : List Text) (maxSize overlap : Nat) :
    (chunkParagraphs ps maxSize overlap).map (·.chunk_id) =
      List.range (chunkParagraphs ps maxSize overlap).length := by
  obtain ⟨h1, h2⟩ := chunkBuild_ids ps maxSize overlap
  rw [List.range_eq_range']
  unfold chunkParagraphs
  dsimp only
  split
  · exact h2
  · obtain ⟨hm, _⟩ := IdsOK_append_one (chunkBuild ps maxSize overlap) ⟨h1, h2⟩
      (chunkBuild ps maxSize overlap).cur "final"
    exact hm

/-! ### The chunk-builder invariant holds over a full build -/

/-- The main preservation lemma: one iteration of the `chunk_paragraphs`
loop on a trimmed, non-empty paragraph preserves the build invariant. -/
theorem bstep_inv {M O B : Nat} (hB : 2 * M + O + 1 ≤ B)
    {st : BState} (hinv : buildInv M O B st) {ip : Nat × Text}
    (hp1 : ip.2 ≠ []) (hp2 : strip ip.2 = ip.2)
    (hp3 : ∀ s ∈ sentSplit ip.2, s.length ≤ B) :
    buildInv M O B (bstep M O st ip) := by
  obtain ⟨hcid, hbuf, hchunks, hev⟩ := hinv
  have hpE : endsNonWS ip.2 = true := endsNonWS_of_strip_eq hp2 hp1
  have hplen : 1 ≤ ip.2.length := List.length_pos.mpr hp1
  unfold bstep
  dsimp only
  split
  · -- the paragraph alone exceeds the budget
    rename_i hlong
    have key : ∀ st1 : BState, st1.cid = st1.chunks.length →
        (∀ c ∈ st1.chunks, chunkOK B c) →
        (∀ e ∈ st1.events, evDone O st1.chunks e) →
        st1.cur = [] → st1.curLen = 0 →
        buildInv M O B
          (let res := packSentences M (toString ip.1 ++ "(部分)") (sentSplit ip.2) [] st1.cid
           let st2 : BState := { st1 with chunks := st1.chunks ++ res.1, cid := res.2.2 }
           if res.2.1.isEmpty then st2
           else { st2 with cur := res.2.1, curLen := res.2.1.length }) := by
      intro st1 g1 g2 g3 g4 g5
      have hss : ∀ s ∈ sentSplit ip.2, s ≠ [] ∧ endsNonWS s = true ∧ s.length ≤ B :=
        fun s hs => ⟨(sentSplit_pieces hp1 hp2 s hs).1, (sentSplit_pieces hp1 hp2 s hs).2,
          hp3 s hs⟩
      obtain ⟨pOK, pSub⟩ := @packSentences_ok M B (toString ip.1 ++ "(部分)") (by omega)
        (sentSplit ip.2) [] st1.cid hss (Or.inl rfl)
      obtain ⟨pid, _⟩ :=
        packSentences_ids M (toString ip.1 ++ "(部分)") (sentSplit ip.2) [] st1.cid
      generalize packSentences M (toString ip.1 ++ "(部分)") (sentSplit ip.2) [] st1.cid = pk
        at pOK pSub pid ⊢
      have hall : ∀ c ∈ st1.chunks ++ pk.1, chunkOK B c := by
        intro c hc
        rcases List.mem_append.mp hc with h | h
        · exact g2 c h
        · exact pOK c h
      have hevap : ∀ e ∈ st1.events, evDone O (st1.chunks ++ pk.1) e :=
        fun e he => evDone_append (g3 e he)
      have hc2 : pk.2.2 = (st1.chunks ++ pk.1).length := by
        rw [pid, g1, List.length_append]
      cases hre : pk.2.1.isEmpty with
      | true =>
        refine ⟨?_, ?_, ?_, ?_⟩ <;> simp only [hre, if_true]
        · exact hc2
        · exact Or.inl ⟨g4, g5⟩
        · exact hall
        · exact Or.inl hevap
      | false =>
        have hpne : pk.2.1 ≠ [] := by simpa using hre
        have hsub : endsNonWS pk.2.1 = true ∧ pk.2.1.length ≤ B := by
          rcases pSub with h | h
          · exact absurd h hpne
          · exact h
        refine ⟨?_, ?_, ?_, ?_⟩ <;> simp only [hre, Bool.false_eq_true, if_false]
        · exact hc2
        · exact bufOK_exact hpne hsub.1 hsub.2
        · exact hall
        · exact Or.inl hevap
    by_cases hcur : st.cur.isEmpty = true
    · simp only [hcur, if_true]
      have hcur' : st.cur = [] := by simpa using hcur
      have hlen0 : st.curLen = 0 := by
        rcases hbuf with ⟨_, h0⟩ | ⟨hne, _⟩
        · exact h0
        · exact absurd hcur' hne
      have hdone : ∀ e ∈ st.events, evDone O st.chunks e := by
        rcases hev with h | ⟨pre, k, ot, hevs, hpre, hpend⟩
        · exact h
        · obtain ⟨_, _, _, rest, hcureq⟩ := hpend
          rw [hcur'] at hcureq
          exact absurd hcureq.symm (List.append_ne_nil_of_right_ne_nil _ (by simp))
      exact key st hcid hchunks hdone hcur' hlen0
    · simp only [hcur, Bool.false_eq_true, if_false]
      have hcur' : st.cur ≠ [] := fun e => hcur (by simp [e])
      have hE : endsNonWS st.cur = true := by
        rcases hbuf with ⟨h0, _⟩ | ⟨_, hE, _⟩
        · exact absurd h0 hcur'
        · exact hE
      have hc0 : chunkOK B (mkChunk st.cid st.cur (toString ip.1)) :=
        chunkOK_of_buf hbuf hcur' (by omega) _ _
      refine key ⟨st.chunks ++ [mkChunk st.cid st.cur (toString ip.1)], [], 0,
        st.cid + 1, st.events⟩ ?_ ?_ ?_ rfl rfl
      · show st.cid + 1 = (st.chunks ++ [mkChunk st.cid st.cur (toString ip.1)]).length
        rw [List.length_append, hcid]
        rfl
      · intro c hc
        rcases List.mem_append.mp hc with h | h
        · exact hchunks c h
        · rcases List.mem_singleton.mp h with rfl
          exact hc0
      · intro e he
        rcases hev with h | ⟨pre, k, ot, hevs, hpre, hpend⟩
        · exact evDone_append (h e he)
        · rw [hevs] at he
          rcases List.mem_append.mp he with h' | h'
          · exact evDone_append (hpre e h')
          · rcases List.mem_singleton.mp h' with rfl
            exact evPending_discharge hpend hE st.cid (toString ip.1)
  · split
    · -- the paragraph joins the buffer
      rename_i hlong hfit
      refine ⟨hcid, ?_, hchunks, ?_⟩
      · show bufOK M B (if st.cur.isEmpty = true then ip.2 else st.cur ++ ' ' :: ip.2)
          (st.curLen + ip.2.length)
        by_cases hce : st.cur.isEmpty = true
        · rw [if_pos hce]
          have hcur0 : st.cur = [] := by simpa using hce
          have hlen0 : st.curLen = 0 := by
            rcases hbuf with ⟨_, h0⟩ | ⟨hne, _⟩
            · exact h0
            · exact absurd hcur0 hne
          rw [hlen0, Nat.zero_add]
          refine Or.inr ⟨hp1, hpE, Or.inl ⟨?_, by omega⟩⟩
          omega
        · rw [if_neg hce]
          have hcne : st.cur ≠ [] := fun e => hce (by simp [e])
          rcases hbuf with ⟨h0, _⟩ | ⟨hne, hE, hcase⟩
          · exact absurd h0 hcne
          rcases hcase with ⟨hm, hlen⟩ | ⟨hgt, _, _⟩
          · refine Or.inr ⟨List.append_ne_nil_of_left_ne_nil hne _,
              endsNonWS_append (endsNonWS_cons hpE), Or.inl ⟨hfit, ?_⟩⟩
            simp only [List.length_append, List.length_cons]
            omega
          · exact absurd hfit (by omega)
      · rcases hev with h | ⟨pre, k, ot, hevs, hpre, hpend⟩
        · exact Or.inl h
        · refine Or.inr ⟨pre, k, ot, hevs, hpre, ?_⟩
          obtain ⟨hl, hck, hnw, rest, hcureq⟩ := hpend
          refine ⟨hl, hck, hnw, rest ++ ' ' :: ip.2, ?_⟩
          show (if st.cur.isEmpty = true then ip.2 else st.cur ++ ' ' :: ip.2) =
            ot ++ ' ' :: (rest ++ ' ' :: ip.2)
          have hcne : st.cur ≠ [] := by
            rw [hcureq]
            exact List.append_ne_nil_of_right_ne_nil _ (by simp)
          rw [if_neg (by simpa using hcne), hcureq]
          simp
    · -- the buffer would overflow: flush and reseed
      rename_i hlong hover
      have hparaM : ip.2.length ≤ M := Nat.le_of_not_lt hlong
      have hcur' : st.cur ≠ [] := by
        rcases hbuf with ⟨hc0, hl0⟩ | ⟨hne, _⟩
        · exact absurd (by omega : st.curLen + ip.2.length ≤ M) hover
        · exact hne
      have hE : endsNonWS st.cur = true := by
        rcases hbuf with ⟨h0, _⟩ | ⟨_, hE, _⟩
        · exact absurd h0 hcur'
        · exact hE
      have hc0 : chunkOK B (mkChunk st.cid st.cur (toString (ip.1 - 1))) :=
        chunkOK_of_buf hbuf hcur' (by omega) _ _
      have hcif : st.cur.isEmpty = false := by simpa using hcur'
      have hdisch : ∀ e ∈ st.events,
          evDone O (st.chunks ++ [mkChunk st.cid st.cur (toString (ip.1 - 1))]) e := by
        intro e he
        rcases hev with h | ⟨pre, k, ot, hevs, hpre, hpend⟩
        · exact evDone_append (h e he)
        · rw [hevs] at he
          rcases List.mem_append.mp he with h' | h'
          · exact evDone_append (hpre e h')
          · rcases List.mem_singleton.mp h' with rfl
            exact evPending_discharge hpend hE st.cid (toString (ip.1 - 1))
      have hcidlen : st.cid + 1 =
          (st.chunks ++ [mkChunk st.cid st.cur (toString (ip.1 - 1))]).length := by
        rw [List.length_append, hcid]
        rfl
      have hallc : ∀ c ∈ st.chunks ++ [mkChunk st.cid st.cur (toString (ip.1 - 1))],
          chunkOK B c := by
        intro c hc
        rcases List.mem_append.mp hc with h | h
        · exact hchunks c h
        · rcases List.mem_singleton.mp h with rfl
          exact hc0
      simp only [hcif, Bool.false_eq_true, if_false, Bool.not_false, Bool.and_true,
        decide_eq_true_eq]
      split
      · -- overlap seeding
        rename_i hO
        have hotE : endsNonWS
            (if O < st.cur.length then takeLast O st.cur else st.cur) = true := by
          split
          · exact endsNonWS_takeLast hO hE
          · exact hE
        have hotlen : (if O < st.cur.length then takeLast O st.cur else st.cur).length ≤ O := by
          split
          · rw [takeLast_length]; omega
          · rename_i h; omega
        have hwin : lstrip (if O < st.cur.length then takeLast O st.cur else st.cur) =
            overlapWindow O (strip st.cur) := window_eq hE hO
        have hotne : (if O < st.cur.length then takeLast O st.cur else st.cur) ≠ [] :=
          endsNonWS_ne_nil hotE
        refine ⟨hcidlen, ?_, hallc, ?_⟩
        · apply bufOK_exact (List.append_ne_nil_of_left_ne_nil hotne _)
            (endsNonWS_append (endsNonWS_cons hpE))
          show ((if O < st.cur.length then takeLast O st.cur else st.cur) ++
            ' ' :: ip.2).length ≤ B
          simp only [List.length_append, List.length_cons]
          omega
        · refine Or.inr ⟨st.events, st.cid,
            if O < st.cur.length then takeLast O st.cur else st.cur, rfl, hdisch, ?_⟩
          refine ⟨hcidlen.symm, ⟨mkChunk st.cid st.cur (toString (ip.1 - 1)), ?_, hwin⟩,
            endsNonWS_hasNonWS hotE, ip.2, rfl⟩
          show (st.chunks ++ [mkChunk st.cid st.cur (toString (ip.1 - 1))])[st.cid]? = _
          rw [hcid]
          exact List.getElem?_concat_length _ _
      · -- no overlap: reseed with the paragraph alone
        refine ⟨hcidlen, ?_, hallc, Or.inl hdisch⟩
        apply bufOK_exact hp1 hpE
        show ip.2.length ≤ B
        omega

/-- The build invariant holds after folding over all paragraphs. -/
theorem chunkBuild_inv {M O B : Nat} (ps : List Text) (hB : 2 * M + O + 1 ≤ B)
    (hps : ∀ p ∈ ps, p ≠ [] ∧ strip p = p)
    (hsent : ∀ p ∈ ps, ∀ s ∈ sentSplit p, s.length ≤ B) :
    buildInv M O B (chunkBuild ps M O) := by
  have hgen : ∀ (l : List (Nat × Text)) (st : BState),
      (∀ x ∈ l, x.2 ∈ ps) → buildInv M O B st →
      buildInv M O B (l.foldl (bstep M O) st) := by
    intro l
    induction l with
    | nil => exact fun st _ h => h
    | cons x t ih =>
      intro st hmem h
      have hx : x.2 ∈ ps := hmem x (List.mem_cons_self x t)
      exact ih _ (fun y hy => hmem y (List.mem_cons_of_mem x hy))
        (bstep_inv hB h (hps x.2 hx).1 (hps x.2 hx).2 (hsent x.2 hx))
  apply hgen ps.enum initState
  · intro x hx
    have h1 : x.2 ∈ ps.enum.map Prod.snd := List.mem_map_of_mem Prod.snd hx
    rwa [show ps.enum.map Prod.snd = ps from List.enumFrom_map_snd 0 ps] at h1
  · exact ⟨rfl, Or.inl ⟨rfl, rfl⟩, fun c hc => absurd hc (List.not_mem_nil c),
      Or.inl (fun e he => absurd he (List.not_mem_nil e))⟩

/-- Unpack the `goodPara` hypothesis. -/
theorem goodPara_spec {ps : List Text} (hps : ps.all goodPara = true) :
    ∀ p ∈ ps, p ≠ [] ∧ strip p = p := by
  intro p hp
  have h := List.all_eq_true.mp hps p hp
  unfold goodPara at h
  obtain ⟨h1, h2⟩ := Bool.and_eq_true_iff.mp h
  exact ⟨by simpa using h1, by simpa using h2⟩

/-- Every sentence of every paragraph is within the amended bound. -/
theorem sentences_within {ps : List Text} {maxSize overlap : Nat} :
    ∀ p ∈ ps, ∀ s ∈ sentSplit p, s.length ≤
      max (2 * maxSize + overlap + 1) (maxOverLen ps maxSize) := by
  intro p hp s hs
  by_cases hM : maxSize < s.length
  · exact Nat.le_trans (le_maxOverLen hp hs hM) (Nat.le_max_right _ _)
  · exact Nat.le_trans (by omega) (Nat.le_max_left (2 * maxSize + overlap + 1) _)

/-! ## C1: chunk non-emptiness and the size bound -/

/-- C1 counterexample: on the trimmed non-empty paragraphs `["ab", "cd"]`
with `max_size = 4` and `overlap = 0`, the builder joins both paragraphs
(the tracked length 4 ignores the joining space) and emits the single
chunk `"ab cd"` of length 5 > 4, although no sentence of any input
paragraph exceeds `max_size` — so the oversized chunk is not covered by
the single-unsplittable-sentence exception. -/
theorem chunk_size_counterexample :
    chunkParagraphs ["ab".toList, "cd".toList] 4 0 =
      [⟨0, "ab cd".toList, 5, "final"⟩] ∧
    4 < 5 ∧
    (["ab".toList, "cd".toList].all
      (fun p => (sentSplit p).all (fun s => s.length ≤ 4))) = true := by
  refine ⟨by decide, by decide, by decide⟩

/-- C1 amended: for paragraphs as produced by the segmenter (trimmed and
non-empty), every emitted chunk is non-empty, and its length is at most
`max (2·max_size + overlap + 1) L`, where `L` is the longest sentence
length exceeding `max_size` among the input paragraphs.  The excess over
`max_size` stems from the joining spaces the tracked length ignores and
from overlap seeding; `L` covers unsplittable oversized sentences. -/
theorem chunk_builder_bounds (ps : List Text) (maxSize overlap : Nat)
    (hps : ps.all goodPara = true) :
    ∀ c ∈ chunkParagraphs ps maxSize overlap,
      c.text ≠ [] ∧
        c.text.length ≤ max (2 * maxSize + overlap + 1) (maxOverLen ps maxSize) := by
  have hinv := @chunkBuild_inv maxSize overlap
    (max (2 * maxSize + overlap + 1) (maxOverLen ps maxSize)) ps
    (Nat.le_max_left _ _) (goodPara_spec hps) sentences_within
  obtain ⟨hcid, hbuf, hchunks, _⟩ := hinv
  intro c hc
  unfold chunkParagraphs at hc
  dsimp only at hc
  by_cases hcur : (chunkBuild ps maxSize overlap).cur.isEmpty = true
  · rw [if_pos hcur] at hc
    exact hchunks c hc
  · rw [if_neg hcur] at hc
    rcases List.mem_append.mp hc with h | h
    · exact hchunks c h
    · rcases List.mem_singleton.mp h with rfl
      refine chunkOK_of_buf hbuf (fun e => hcur (by simp [e])) ?_ _ _
      have := Nat.le_max_left (2 * maxSize + overlap + 1) (maxOverLen ps maxSize)
      omega

/-- C1 amended, witness at the counterexample input: the oversized chunk
`"ab cd"` satisfies the amended bound. -/
theorem chunk_builder_bounds_witness :
    (["ab".toList, "cd".toList].all goodPara) = true ∧
    ((⟨0, "ab cd".toList, 5, "final"⟩ : Chunk) ∈
      chunkParagraphs ["ab".toList, "cd".toList] 4 0) ∧
    "ab cd".toList ≠ [] ∧
    ("ab cd".toList).length ≤
      max (2 * 4 + 0 + 1) (maxOverLen ["ab".toList, "cd".toList] 4) :=
  ⟨by decide, by decide,
    (chunk_builder_bounds ["ab".toList, "cd".toList] 4 0 (by decide)
      ⟨0, "ab cd".toList, 5, "final"⟩ (by decide)).1,
    (chunk_builder_bounds ["ab".toList, "cd".toList] 4 0 (by decide)
      ⟨0, "ab cd".toList, 5, "final"⟩ (by decide)).2⟩

/-! ## C2: the overlap relation between consecutive chunks -/

/-- C2 counterexample: a flush-triggered overlap applies (recorded event),
the trailing `min o (len chunk₀)` characters of chunk 0's text are
`" cd"`, yet chunk 1's text starts with `"cd "` — the seeded buffer is
stripped before emission, so the window's leading space does not
survive. -/
theorem chunk_overlap_counterexample :
    chunkEvents ["ab".toList, "cd".toList, "efg".toList] 4 3 = [(0, " cd".toList)] ∧
    chunkParagraphs ["ab".toList, "cd".toList, "efg".toList] 4 3 =
      [⟨0, "ab cd".toList, 5, "1"⟩, ⟨1, "cd efg".toList, 6, "final"⟩] ∧
    takeLast (min 3 "ab cd".toList.length) "ab cd".toList = " cd".toList ∧
    ("cd efg".toList.take 3 ≠ " cd".toList) := by
  refine ⟨by decide, by decide, by decide, by decide⟩

/-- C2 amended: for paragraphs as produced by the segmenter, whenever a
flush-triggered overlap applies (a recorded event `(k, ot)`), chunk `k+1`
exists and its text starts with the *left-trimmed* trailing
`min o (len chunk_k)` characters of chunk `k`'s text (`overlapWindow`) —
the leading whitespace of the raw window is removed when the next buffer
is stripped on emission. -/
theorem chunk_overlap_window (ps : List Text) (maxSize overlap : Nat)
    (hps : ps.all goodPara = true) :
    ∀ k ot, (k, ot) ∈ chunkEvents ps maxSize overlap →
      k + 1 < (chunkParagraphs ps maxSize overlap).length ∧
      (chunkAt ps maxSize overlap (k + 1)).text.take
          (overlapWindow overlap (chunkAt ps maxSize overlap k).text).length =
        overlapWindow overlap (chunkAt ps maxSize overlap k).text := by
  have hinv := @chunkBuild_inv maxSize overlap
    (max (2 * maxSize + overlap + 1) (maxOverLen ps maxSize)) ps
    (Nat.le_max_left _ _) (goodPara_spec hps) sentences_within
  obtain ⟨hcid, hbuf, hchunks, hev⟩ := hinv
  intro k ot hev'
  have hdone : evDone overlap (chunkParagraphs ps maxSize overlap) (k, ot) := by
    unfold chunkEvents at hev'
    unfold chunkParagraphs
    dsimp only
    by_cases hcur : (chunkBuild ps maxSize overlap).cur.isEmpty = true
    · rw [if_pos hcur]
      rcases hev with h | ⟨pre, k', ot', hevs, hpre, hpend⟩
      · exact h _ hev'
      · exfalso
        obtain ⟨_, _, _, rest, hcureq⟩ := hpend
        have hnil : (chunkBuild ps maxSize overlap).cur = [] := by simpa using hcur
        rw [hnil] at hcureq
        exact (List.append_ne_nil_of_right_ne_nil _ (by simp)) hcureq.symm
    · rw [if_neg hcur]
      have hcne : (chunkBuild ps maxSize overlap).cur ≠ [] := fun e => hcur (by simp [e])
      have hE : endsNonWS (chunkBuild ps maxSize overlap).cur = true := by
        rcases hbuf with ⟨h0, _⟩ | ⟨_, hE, _⟩
        · exact absurd h0 hcne
        · exact hE
      rcases hev with h | ⟨pre, k', ot', hevs, hpre, hpend⟩
      · exact evDone_append (h _ hev')
      · rw [hevs] at hev'
        rcases List.mem_append.mp hev' with h' | h'
        · exact evDone_append (hpre _ h')
        · have heq := List.mem_singleton.mp h'
          rw [Prod.mk.injEq] at heq
          obtain ⟨rfl, rfl⟩ := heq
          exact evPending_discharge hpend hE _ "final"
  obtain ⟨ck, ck', h1, h2, h3⟩ := hdone
  refine ⟨(List.getElem?_eq_some_iff.mp h2).1, ?_⟩
  unfold chunkAt
  rw [h1, h2]
  simp only [Option.getD_some]
  exact h3

/-- C2 amended, witness at the counterexample input: the event `(0, " cd")`
is recorded, chunk 1 exists, and its text `"cd efg"` starts with the
left-trimmed window `"cd"` of chunk 0's text `"ab cd"`. -/
theorem chunk_overlap_window_witness :
    (["ab".toList, "cd".toList, "efg".toList].all goodPara) = true ∧
    ((0, " cd".toList) ∈ chunkEvents ["ab".toList, "cd".toList, "efg".toList] 4 3) ∧
    0 + 1 < (chunkParagraphs ["ab".toList, "cd".toList, "efg".toList] 4 3).length ∧
    (chunkAt ["ab".toList, "cd".toList, "efg".toList] 4 3 (0 + 1)).text.take
        (overlapWindow 3
          (chunkAt ["ab".toList, "cd".toList, "efg".toList] 4 3 0).text).length =
      overlapWindow 3 (chunkAt ["ab".toList, "cd".toList, "efg".toList] 4 3 0).text :=
  ⟨by decide, by decide,
    (chunk_overlap_window ["ab".toList, "cd".toList, "efg".toList] 4 3 (by decide)
      0 " cd".toList (by decide)).1,
    (chunk_overlap_window ["ab".toList, "cd".toList, "efg".toList] 4 3 (by decide)
      0 " cd".toList (by decide)).2⟩

end MedicalRAG
